import Mathlib

/-!
Shallow embedding of the experimentation / adaptive-decision core of the
`content_production_automation` repository: the epsilon-greedy
`ExperimentOptimizer`, the `ExperimentLifecycleManager`, the `ModeController`,
the `ObjectiveAwareStrategyUpdater` and the `NicheStrategyEngine.evaluate_results`
ranking, translated from `src/instagram_ai_system/`.

Python `float` is modelled by `ℚ`, Python `int` by `ℤ`/`ℕ`, and Python `dict`
(insertion-ordered) by an association list `List (String × _)`.  The two random
primitives (`random.choice`, `random.random() < eps`) are supplied by explicit
oracle arguments (`pick : ℕ` picks an index modulo the list length,
`explore : Bool` is the outcome of the epsilon coin flip).
-/

namespace ContentProd

/-- Bandit pull count and accumulated reward: `ArmStats` from
`experiment_optimizer.py`. -/
structure ArmStats where
  pulls : Nat
  reward_sum : ℚ
deriving Repr, DecidableEq

/-- Average reward of an arm: `self.reward_sum / self.pulls if self.pulls else 0.0`. -/
def ArmStats.avg_reward (s : ArmStats) : ℚ :=
  if s.pulls = 0 then 0 else s.reward_sum / s.pulls

/-- Lookup in an insertion-ordered association list (Python `dict` read). -/
def lookupE {β : Type} : List (String × β) → String → Option β
  | [], _ => none
  | (k, v) :: rest, a => if a = k then some v else lookupE rest a

/-- Reading `self.arms[c]` through `defaultdict(ArmStats)`: a missing key
reads as freshly constructed `ArmStats()` (pulls 0, reward_sum 0). -/
def getStats (arms : List (String × ArmStats)) (k : String) : ArmStats :=
  (lookupE arms k).getD ⟨0, 0⟩

/-- Assignment `d[k] = v` on a Python dict: overwrite the entry in place when
the key is present, else append a new entry at the end. -/
def setEntry {β : Type} : List (String × β) → String → β → List (String × β)
  | [], k, v => [(k, v)]
  | (k', v') :: rest, k, v =>
    if k' = k then (k, v) :: rest else (k', v') :: setEntry rest k v

/-- Touching `self.arms[c]` on a `defaultdict` inserts a default entry when the
key is absent (at the end, matching dict insertion order). -/
def ensure (arms : List (String × ArmStats)) (k : String) : List (String × ArmStats) :=
  match lookupE arms k with
  | some _ => arms
  | none => arms ++ [(k, ⟨0, 0⟩)]

/-- Iterated `defaultdict` touches performed by iterating over all candidates. -/
def ensureAll (arms : List (String × ArmStats)) (ks : List String) : List (String × ArmStats) :=
  ks.foldl ensure arms

/-- Configuration record `OptimizationConfig` from `config.py` (weights as an
ordered mapping). -/
structure OptimizationConfig where
  objective_weights : List (String × ℚ)
  epsilon_exploration : ℚ
  min_sample_size_for_winner : Nat
deriving Repr, DecidableEq

/-- Default field values of `OptimizationConfig`. -/
def defaultOptimizationConfig : OptimizationConfig :=
  ⟨[("views", 0.10), ("likes", 0.15), ("comments", 0.20), ("shares", 0.25),
    ("saves", 0.25), ("watch_time", 0.05)], 0.2, 20⟩

/-- Metrics record `PublishedPostMetrics` from `models.py`. -/
structure PublishedPostMetrics where
  brief_id : String
  views : Nat
  likes : Nat
  comments : Nat
  shares : Nat
  saves : Nat
  avg_watch_time_seconds : ℚ
deriving Repr, DecidableEq

/-- Dictionary read `weights.get(key, d)` on the objective-weights dict. -/
def getWeight (w : List (String × ℚ)) (k : String) (d : ℚ) : ℚ :=
  (lookupE w k).getD d

/-- Reward formula `PublishedPostMetrics.score`: weighted dot product of the six
metric fields, a missing weight defaulting to 0. -/
def PublishedPostMetrics.score (m : PublishedPostMetrics) (w : List (String × ℚ)) : ℚ :=
  m.views * getWeight w "views" 0 + m.likes * getWeight w "likes" 0
    + m.comments * getWeight w "comments" 0 + m.shares * getWeight w "shares" 0
    + m.saves * getWeight w "saves" 0 + m.avg_watch_time_seconds * getWeight w "watch_time" 0

/-- State of an `ExperimentOptimizer` instance: its config and its `arms` map. -/
structure OptState where
  config : OptimizationConfig
  arms : List (String × ArmStats)
deriving Repr, DecidableEq

/-- Oracle model of `random.choice`: an index reduced modulo the list length. -/
def pickFrom (l : List String) (n : Nat) : String :=
  l.getD (n % l.length) ""

/-- Python `max(x :: l, key=f)`: keeps the first maximum encountered,
replacing the running best only on a strictly larger key. -/
def argmaxBy {α : Type} (f : α → ℚ) (x : α) (l : List α) : α :=
  l.foldl (fun best c => if f best < f c then c else best) x

/-- Value returned by `ExperimentOptimizer.choose_archetype`, computed over the
arms map `arms1` in which every candidate has already been touched (the list
comprehension `[c for c in candidates if self.arms[c].pulls == 0]` touches
every candidate in the `defaultdict`). -/
def chooseName (arms1 : List (String × ArmStats)) (candidates : List String)
    (pick : Nat) (explore : Bool) : String :=
  let unseen := candidates.filter (fun c => (getStats arms1 c).pulls == 0)
  if unseen.isEmpty then
    if explore then pickFrom candidates pick
    else
      match candidates with
      | [] => ""
      | c :: rest => argmaxBy (fun x => (getStats arms1 x).avg_reward) c rest
  else pickFrom unseen pick

/-- Method `ExperimentOptimizer.choose_archetype`: the returned key together
with the state after the `defaultdict` touches.  Randomness comes from the
`pick` / `explore` oracles. -/
def choose_archetype (st : OptState) (candidates : List String) (pick : Nat)
    (explore : Bool) : String × OptState :=
  let arms1 := ensureAll st.arms candidates
  (chooseName arms1 candidates pick explore, ⟨st.config, arms1⟩)

/-- Method `ExperimentOptimizer.register_result`: returns the reward and the
new state (`pulls += 1`, `reward_sum += reward` on the touched arm). -/
def register_result (st : OptState) (archetype : String)
    (metrics : PublishedPostMetrics) : ℚ × OptState :=
  let reward := metrics.score st.config.objective_weights
  let stats := getStats st.arms archetype
  (reward, ⟨st.config, setEntry st.arms archetype ⟨stats.pulls + 1, stats.reward_sum + reward⟩⟩)

/-- Method `ExperimentOptimizer.export_arm_state`: rebuilds a fresh mapping
entry by entry (`{name: ArmStats(pulls=..., reward_sum=...) for ...}`). -/
def export_arm_state (st : OptState) : List (String × ArmStats) :=
  st.arms.map (fun p => (p.1, ⟨p.2.pulls, p.2.reward_sum⟩))

/-- Method `ExperimentOptimizer.import_arm_state`: for each imported entry,
assigns `pulls` and `reward_sum` of the (lazily created) arm to the imported
values, overwriting whatever was there. -/
def import_arm_state (st : OptState) (arm_state : List (String × ArmStats)) : OptState :=
  ⟨st.config, arm_state.foldl (fun a p => setEntry a p.1 ⟨p.2.pulls, p.2.reward_sum⟩) st.arms⟩

/-- One public operation on an `ExperimentOptimizer`. -/
inductive OptOp where
  | choose (candidates : List String) (pick : Nat) (explore : Bool)
  | register (archetype : String) (metrics : PublishedPostMetrics)
  | exportState
  | importState (arm_state : List (String × ArmStats))
deriving Repr

/-- Test for an `import_arm_state` operation. -/
def OptOp.isImport : OptOp → Bool
  | .importState _ => true
  | _ => false

/-- State effect of one optimizer operation. -/
def step (st : OptState) : OptOp → OptState
  | .choose cs p e => (choose_archetype st cs p e).2
  | .register a m => (register_result st a m).2
  | .exportState => st
  | .importState s => import_arm_state st s

/-- Running a sequence of optimizer operations. -/
def runOps (st : OptState) (ops : List OptOp) : OptState :=
  ops.foldl step st

/-- Number of `register_result` calls on a given arm key in a trace. -/
def registerCount (k : String) (ops : List OptOp) : Nat :=
  ops.countP (fun op => match op with | .register a _ => a == k | _ => false)

/-- Total reward accumulated on a given arm key by the `register_result`
calls of a trace (the config, hence the weights, never changes). -/
def registerRewardSum (w : List (String × ℚ)) (k : String) (ops : List OptOp) : ℚ :=
  (ops.map (fun op => match op with
    | .register a m => if a = k then m.score w else 0
    | _ => 0)).sum

/-- Decision record `LifecycleResult` from `experiment_lifecycle_management.py`. -/
structure LifecycleResult where
  winner : Option String
  promoted : Bool
  archived : Bool
deriving Repr, DecidableEq

/-- One record given to `state_repo.build_arm_state_record` and then upserted. -/
structure ArmStateRecord where
  arm_key : String
  pulls : Nat
  reward_sum : ℚ
  schema_version : String
  trace_id : String
deriving Repr, DecidableEq

/-- Key builder `ExperimentLifecycleManager._arm_key`. -/
def mkArmKey (experiment_id variant : String) : String :=
  "exp::" ++ experiment_id ++ "::" ++ variant

/-- Python `str.split("::")` on character lists: leftmost, non-overlapping
matches of the two-character separator. -/
def splitColons : List Char → List Char → List (List Char)
  | [], acc => [acc.reverse]
  | [c], acc => [(c :: acc).reverse]
  | c₁ :: c₂ :: cs, acc =>
    if c₁ = ':' ∧ c₂ = ':' then acc.reverse :: splitColons cs []
    else splitColons (c₂ :: cs) (c₁ :: acc)

/-- Last split component: `arm_choice.split("::")[-1]`. -/
def splitLastColons (s : String) : String :=
  ⟨(splitColons s.data []).getLastD []⟩

/-- Method `ExperimentLifecycleManager.assign_variant`. -/
def assign_variant (st : OptState) (experiment_id : String) (variants : List String)
    (pick : Nat) (explore : Bool) : String × OptState :=
  let r := choose_archetype st (variants.map (mkArmKey experiment_id)) pick explore
  (splitLastColons r.1, r.2)

/-- Side effect of `ExperimentLifecycleManager._persist_marker`: without a
configured state repository this is a silent no-op; otherwise one record is
built and upserted. -/
def persist_marker (repoConfigured : Bool) (schemaVersion key : String)
    (pulls : Nat) (reward_sum : ℚ) (traceId : String) : List ArmStateRecord :=
  if repoConfigured then [⟨key, pulls, reward_sum, schemaVersion, traceId⟩] else []

/-- Candidate-collection loop of `promote_winner`: variants whose arm key is
present in the exported state with `pulls >= min_sample_size_for_winner`. -/
def qualifying (arm_state : List (String × ArmStats)) (experiment_id : String)
    (variants : List String) (min_sample_size_for_winner : Nat) :
    List (String × ArmStats) :=
  variants.filterMap (fun variant =>
    (lookupE arm_state (mkArmKey experiment_id variant)).bind (fun stats =>
      if min_sample_size_for_winner ≤ stats.pulls then some (variant, stats) else none))

/-- Method `ExperimentLifecycleManager.promote_winner`: returns the decision
and the list of marker records persisted to the state repository. -/
def promote_winner (st : OptState) (repoConfigured : Bool) (schemaVersion : String)
    (experiment_id : String) (variants : List String)
    (min_sample_size_for_winner : Nat) : LifecycleResult × List ArmStateRecord :=
  let arm_state := export_arm_state st
  match qualifying arm_state experiment_id variants min_sample_size_for_winner with
  | [] => (⟨none, false, false⟩, [])
  | c :: rest =>
    let w := argmaxBy (fun p => p.2.avg_reward) c rest
    (⟨some w.1, true, false⟩,
      persist_marker repoConfigured schemaVersion
        ("winner::" ++ experiment_id ++ "::" ++ w.1) w.2.pulls w.2.avg_reward "system")

/-- Input record `ModeInputs` from `mode_controller.py`. -/
structure ModeInputs where
  hit_rate_7d : ℚ
  novelty_fatigue : ℚ
  account_volatility : ℚ
  confidence_trend : ℚ
  monetization_drift : ℚ
  plateau_cycles : ℤ
  hours_since_mode_change : ℤ
  drawdown_24h : ℚ
  risk_budget : ℚ
deriving Repr, DecidableEq

/-- Output record `ModeDecision` from `mode_controller.py`. -/
structure ModeDecision where
  mode : String
  explore_coef : ℚ
  rationale : List String
deriving Repr, DecidableEq

/-- Python `round(x, 4)` (ties cannot arise in the values this file rounds). -/
def round4 (q : ℚ) : ℚ :=
  (round (q * 10000) : ℤ) / 10000

/-- Method `ModeController.decide`: the transition if-chain produces the mode
and the rationale entries; the explore-coefficient update always runs after. -/
def mode_decide (current_mode : String) (explore_coef : ℚ) (inputs : ModeInputs) :
    ModeDecision :=
  let mr : String × List String :=
    if inputs.hours_since_mode_change < 6 then (current_mode, ["cooldown_active"])
    else if current_mode = "exploit" ∧ 0.65 ≤ inputs.novelty_fatigue then
      ("explore", ["exploit_to_explore_due_to_fatigue"])
    else if current_mode = "explore" ∧ 0.6 ≤ inputs.hit_rate_7d ∧ 0 < inputs.confidence_trend then
      ("mutation", ["explore_to_mutation_due_to_repeated_wins"])
    else if 3 ≤ inputs.plateau_cycles ∧ 0.6 ≤ inputs.risk_budget ∧ 12 ≤ inputs.hours_since_mode_change then
      ("chaos", ["plateau_triggered_chaos"])
    else if current_mode = "chaos" ∧ inputs.hit_rate_7d < 0.5 then
      ("exploit", ["chaos_back_to_exploit"])
    else (current_mode, [])
  let adjusted := explore_coef + (0.2 - inputs.drawdown_24h) * 0.1 + inputs.monetization_drift * 0.05
  let clamped := min 0.8 (max 0.05 adjusted)
  ⟨mr.1, round4 clamped, if mr.2.isEmpty then ["stay"] else mr.2⟩

/-- Lookup table `ObjectiveAwareStrategyUpdater.KPI_TO_WEIGHT`. -/
def KPI_TO_WEIGHT : List (String × String) :=
  [("reach_delta", "views"), ("engagement_delta", "likes"),
   ("conversation_delta", "comments"), ("share_delta", "shares"),
   ("save_delta", "saves"), ("watch_time_delta", "watch_time")]

/-- Output record `StrategyUpdate` from `learning_strategy_updates.py`. -/
structure StrategyUpdate where
  objective : String
  adjusted_weights : List (String × ℚ)
deriving Repr, DecidableEq

/-- Loop body of `ObjectiveAwareStrategyUpdater.apply`: one KPI delta nudges
its mapped weight by `±adjustment_step`, floored at 0.01; unmapped names are
skipped. -/
def nudgeWeights (adjustment_step : ℚ) (ws : List (String × ℚ)) (kv : String × ℚ) :
    List (String × ℚ) :=
  match lookupE KPI_TO_WEIGHT kv.1 with
  | none => ws
  | some metric_key =>
    let direction : ℚ := if kv.2 < 0 then -1 else 1
    setEntry ws metric_key
      (max 0.01 (getWeight ws metric_key 0.01 + adjustment_step * direction))

/-- Method `ObjectiveAwareStrategyUpdater.apply`: returns the update together
with the mutated config (whose `objective_weights` are replaced wholesale). -/
def strategy_apply (objective : String) (kpi_deltas : List (String × ℚ))
    (optimization : OptimizationConfig) (adjustment_step : ℚ) :
    StrategyUpdate × OptimizationConfig :=
  let weights0 := kpi_deltas.foldl (nudgeWeights adjustment_step) optimization.objective_weights
  let total := (weights0.map Prod.snd).sum
  let weights := if 0 < total then weights0.map (fun p => (p.1, p.2 / total)) else weights0
  (⟨objective, weights⟩,
   ⟨weights, optimization.epsilon_exploration, optimization.min_sample_size_for_winner⟩)

/-- Outcome record `ExperimentOutcome` from `models.py`. -/
structure ExperimentOutcome where
  niche_name : String
  posts_published : Nat
  median_views : ℚ
  follow_conversion_rate : ℚ
  saves_shares_per_view : ℚ
  retention_proxy : ℚ
  feasibility_note : String
deriving Repr, DecidableEq

/-- Sort-key tuple of `NicheStrategyEngine.evaluate_results`. -/
def outcomeKey (o : ExperimentOutcome) : ℚ × ℚ × ℚ × ℚ :=
  (o.follow_conversion_rate, o.saves_shares_per_view, o.retention_proxy, o.median_views)

/-- Lexicographic `≤` on 4-tuples (Python tuple comparison). -/
def tupLe (a b : ℚ × ℚ × ℚ × ℚ) : Bool :=
  if a.1 < b.1 then true else if b.1 < a.1 then false
  else if a.2.1 < b.2.1 then true else if b.2.1 < a.2.1 then false
  else if a.2.2.1 < b.2.2.1 then true else if b.2.2.1 < a.2.2.1 then false
  else decide (a.2.2.2 ≤ b.2.2.2)

/-- Comparator realising `sorted(..., key=tuple, reverse=True)` with a stable
sort: `a` may stay before `b` exactly when its key is greater or equal. -/
def outcomeGe (a b : ExperimentOutcome) : Bool :=
  tupLe (outcomeKey b) (outcomeKey a)

/-- Result record of `evaluate_results` (the `summary` medians are absent on
empty input, where the source returns only a count). -/
structure EvalResult where
  winners : List String
  kill_list : List String
  summary_count : Nat
  summary_medians : Option (ℚ × ℚ)
deriving Repr, DecidableEq

/-- Method `NicheStrategyEngine.evaluate_results`.  The source computes
`round(len(ranked) * 0.4)` with Python banker's rounding on a float; in `ℚ`
the value `0.4 * n` never sits at a tie (its fractional part is a multiple of
1/5), so `round` here agrees with it. -/
def evaluate_results (performance_snapshots : List ExperimentOutcome) : EvalResult :=
  if performance_snapshots.isEmpty then ⟨[], [], 0, none⟩
  else
    let ranked := performance_snapshots.mergeSort outcomeGe
    let winner_count := max 1 (round ((ranked.length : ℚ) * 0.4)).toNat
    let winners := (ranked.take winner_count).map ExperimentOutcome.niche_name
    let kill_list := (ranked.drop winner_count).map ExperimentOutcome.niche_name
    ⟨winners, kill_list, ranked.length,
      some (round4 ((ranked.map ExperimentOutcome.follow_conversion_rate).sum / ranked.length),
            round4 ((ranked.map ExperimentOutcome.retention_proxy).sum / ranked.length))⟩

/-! ### Concrete inputs used by witnesses and counterexamples -/

/-- Metrics with one view only: scores 0.1 under the default weights. -/
def mOneView : PublishedPostMetrics := ⟨"brief-1", 1, 0, 0, 0, 0, 0⟩

/-- Fresh optimizer state with the default config and no arms. -/
def st0 : OptState := ⟨defaultOptimizationConfig, []⟩

/-- Optimizer state with one seen arm. -/
def c4st : OptState := ⟨defaultOptimizationConfig, [("a", ⟨2, 5⟩)]⟩

/-- An imported arm mapping. -/
def c4m : List (String × ArmStats) := [("a", ⟨1, 1⟩), ("b", ⟨2, 3⟩)]

/-- The same mapping with its entries in the opposite order. -/
def c4m' : List (String × ArmStats) := [("b", ⟨2, 3⟩), ("a", ⟨1, 1⟩)]

/-- Optimizer state with one seen arm and default config, for cold-start runs. -/
def c1st : OptState := ⟨defaultOptimizationConfig, [("a", ⟨3, 1⟩)]⟩

/-- Lifecycle state whose only experiment arm sits below the winner threshold. -/
def c5st : OptState := ⟨defaultOptimizationConfig, [("exp::e1::a", ⟨3, 2⟩)]⟩

/-- Lifecycle state realising the promotion scenario of the spec:
variant "a" has pulls 2 / reward 16, variant "b" has pulls 2 / reward 4. -/
def c6st : OptState :=
  ⟨defaultOptimizationConfig, [("exp::e1::a", ⟨2, 16⟩), ("exp::e1::b", ⟨2, 4⟩)]⟩

/-- Mode inputs inside the cooldown window whose fatigue would otherwise force
an exploit-to-explore transition. -/
def c7inputs : ModeInputs := ⟨0.7, 0.9, 0.1, 0.5, 0.2, 5, 2, 0.1, 0.9⟩

/-- Config holding one positive and one negative weight that cancel. -/
def c8badConfig : OptimizationConfig := ⟨[("views", 1), ("junk", -1)], 0.2, 20⟩

/-- Experiment outcomes mirroring `test_niche_strategy_engine_evaluates_results`. -/
def oc1 : ExperimentOutcome := ⟨"n1", 12, 3000, 0.02, 0.05, 0.5, "ok"⟩

/-- Second outcome of the evaluation scenario. -/
def oc2 : ExperimentOutcome := ⟨"n2", 12, 2500, 0.01, 0.03, 0.4, "ok"⟩

/-- Third outcome of the evaluation scenario. -/
def oc3 : ExperimentOutcome := ⟨"n3", 12, 1800, 0.008, 0.02, 0.35, "hard"⟩

/-- Fourth outcome, for the five-outcome scenario of the spec. -/
def oc4 : ExperimentOutcome := ⟨"n4", 12, 1700, 0.007, 0.019, 0.33, "ok"⟩

/-- Fifth outcome, for the five-outcome scenario of the spec. -/
def oc5 : ExperimentOutcome := ⟨"n5", 12, 1600, 0.006, 0.018, 0.31, "ok"⟩

/-- The five-outcome scenario list of the spec. -/
def c2outs : List ExperimentOutcome := [oc1, oc2, oc3, oc4, oc5]

/-! ### Association-list lemmas -/

theorem lookupE_setEntry_self {β : Type} (l : List (String × β)) (k : String) (v : β) :
    lookupE (setEntry l k v) k = some v := by
  induction l with
  | nil => simp [setEntry, lookupE]
  | cons p rest ih =>
    obtain ⟨k', v'⟩ := p
    by_cases h : k' = k
    · subst h
      simp [setEntry, lookupE]
    · have h2 : ¬ k = k' := fun hh => h hh.symm
      simp [setEntry, lookupE, h, h2, ih]

theorem lookupE_setEntry_ne {β : Type} (l : List (String × β)) (k k' : String) (v : β)
    (h : k' ≠ k) : lookupE (setEntry l k v) k' = lookupE l k' := by
  induction l with
  | nil => simp [setEntry, lookupE, h]
  | cons p rest ih =>
    obtain ⟨k₀, v₀⟩ := p
    by_cases h0 : k₀ = k
    · subst h0
      simp [setEntry, lookupE, h, ih]
    · simp [setEntry, lookupE, h0, ih]

theorem lookupE_append_some {β : Type} {l₁ : List (String × β)} (l₂ : List (String × β))
    {k : String} {v : β} (h : lookupE l₁ k = some v) :
    lookupE (l₁ ++ l₂) k = some v := by
  induction l₁ with
  | nil => simp [lookupE] at h
  | cons p rest ih =>
    obtain ⟨k₀, v₀⟩ := p
    by_cases h0 : k = k₀
    · simp [lookupE, h0] at h ⊢
      exact h
    · simp [lookupE, h0] at h ⊢
      exact ih h

theorem lookupE_append_none {β : Type} {l₁ : List (String × β)} (l₂ : List (String × β))
    {k : String} (h : lookupE l₁ k = none) :
    lookupE (l₁ ++ l₂) k = lookupE l₂ k := by
  induction l₁ with
  | nil => simp
  | cons p rest ih =>
    obtain ⟨k₀, v₀⟩ := p
    by_cases h0 : k = k₀
    · simp [lookupE, h0] at h
    · simp [lookupE, h0] at h ⊢
      exact ih h

theorem lookupE_eq_none_iff {β : Type} (l : List (String × β)) (k : String) :
    lookupE l k = none ↔ k ∉ l.map Prod.fst := by
  induction l with
  | nil => simp [lookupE]
  | cons p rest ih =>
    obtain ⟨k₀, v₀⟩ := p
    by_cases h0 : k = k₀
    · simp [lookupE, h0]
    · simp [lookupE, h0, ih]

theorem lookupE_mem {β : Type} {l : List (String × β)} {k : String} {v : β}
    (h : lookupE l k = some v) : (k, v) ∈ l := by
  induction l with
  | nil => simp [lookupE] at h
  | cons p rest ih =>
    obtain ⟨k₀, v₀⟩ := p
    by_cases h0 : k = k₀
    · subst h0
      simp [lookupE] at h
      subst h
      exact List.mem_cons_self _ _
    · simp [lookupE, h0] at h
      exact List.mem_cons_of_mem _ (ih h)

theorem nodupKeys_lookupE {β : Type} {l : List (String × β)}
    (hnd : (l.map Prod.fst).Nodup) : ∀ p ∈ l, lookupE l p.1 = some p.2 := by
  induction l with
  | nil => intro p hp; simp at hp
  | cons q rest ih =>
    obtain ⟨k₀, v₀⟩ := q
    simp only [List.map_cons, List.nodup_cons] at hnd
    intro p hp
    rcases List.mem_cons.mp hp with h | h
    · subst h
      simp [lookupE]
    · have hk : p.1 ≠ k₀ := by
        intro hh
        exact hnd.1 (hh ▸ List.mem_map_of_mem Prod.fst h)
      simp only [lookupE, if_neg hk]
      exact ih hnd.2 p h

theorem getStats_ensure (a : List (String × ArmStats)) (k k' : String) :
    getStats (ensure a k) k' = getStats a k' := by
  unfold ensure
  cases h : lookupE a k with
  | some v => rfl
  | none =>
    unfold getStats
    by_cases hk : k' = k
    · subst hk
      rw [lookupE_append_none _ h, h]
      simp [lookupE]
    · cases h2 : lookupE a k' with
      | some v => rw [lookupE_append_some _ h2]
      | none =>
        rw [lookupE_append_none _ h2]
        simp [lookupE, hk]

theorem getStats_ensureAll (ks : List String) :
    ∀ (a : List (String × ArmStats)) (k : String), getStats (ensureAll a ks) k = getStats a k := by
  induction ks with
  | nil => intro a k; rfl
  | cons c cs ih =>
    intro a k
    show getStats (ensureAll (ensure a c) cs) k = getStats a k
    rw [ih, getStats_ensure]

theorem lookupE_ensure_preserve {a : List (String × ArmStats)} {k' : String} {v : ArmStats}
    (k : String) (h : lookupE a k' = some v) : lookupE (ensure a k) k' = some v := by
  unfold ensure
  cases h0 : lookupE a k with
  | some w => exact h
  | none => exact lookupE_append_some _ h

theorem lookupE_ensure_absent {a : List (String × ArmStats)} {k : String}
    (h : lookupE a k = none) : lookupE (ensure a k) k = some ⟨0, 0⟩ := by
  unfold ensure
  rw [h, lookupE_append_none _ h]
  simp [lookupE]

theorem lookupE_ensure_none {a : List (String × ArmStats)} {k k' : String}
    (hk : k' ≠ k) (h : lookupE a k' = none) : lookupE (ensure a k) k' = none := by
  unfold ensure
  cases h0 : lookupE a k with
  | some w => exact h
  | none =>
    rw [lookupE_append_none _ h]
    simp [lookupE, hk]

theorem lookupE_ensureAll_preserve (ks : List String) :
    ∀ {a : List (String × ArmStats)} {k' : String} {v : ArmStats},
      lookupE a k' = some v → lookupE (ensureAll a ks) k' = some v := by
  induction ks with
  | nil => intro a k' v h; exact h
  | cons c cs ih =>
    intro a k' v h
    show lookupE (ensureAll (ensure a c) cs) k' = some v
    exact ih (lookupE_ensure_preserve c h)

theorem lookupE_ensureAll_new (ks : List String) :
    ∀ {a : List (String × ArmStats)} {c : String}, c ∈ ks → lookupE a c = none →
      lookupE (ensureAll a ks) c = some ⟨0, 0⟩ := by
  induction ks with
  | nil => intro a c hc; simp at hc
  | cons k₀ rest ih =>
    intro a c hc h0
    show lookupE (ensureAll (ensure a k₀) rest) c = some ⟨0, 0⟩
    by_cases hck : c = k₀
    · subst hck
      exact lookupE_ensureAll_preserve rest (lookupE_ensure_absent h0)
    · have hc' : c ∈ rest := by
        rcases List.mem_cons.mp hc with h | h
        · exact absurd h hck
        · exact h
      exact ih hc' (lookupE_ensure_none hck h0)

theorem lookupE_ensureAll_isSome (ks : List String) :
    ∀ {a : List (String × ArmStats)} {c : String}, c ∈ ks →
      (lookupE (ensureAll a ks) c).isSome = true := by
  intro a c hc
  cases h : lookupE a c with
  | some v => rw [lookupE_ensureAll_preserve ks h]; rfl
  | none => rw [lookupE_ensureAll_new ks hc h]; rfl

/-! ### Choice lemmas -/

theorem pickFrom_mem (l : List String) (n : Nat) (h : l ≠ []) : pickFrom l n ∈ l := by
  have hl : 0 < l.length := List.length_pos.mpr h
  have hlt : n % l.length < l.length := Nat.mod_lt _ hl
  rw [pickFrom, List.getD_eq_getElem l _ hlt]
  exact List.getElem_mem hlt

theorem argmaxBy_mem {α : Type} (f : α → ℚ) :
    ∀ (l : List α) (x : α), argmaxBy f x l ∈ x :: l := by
  intro l
  induction l with
  | nil => intro x; simp [argmaxBy]
  | cons c cs ih =>
    intro x
    have h1 : argmaxBy f x (c :: cs) = argmaxBy f (if f x < f c then c else x) cs := rfl
    rw [h1]
    rcases List.mem_cons.mp (ih (if f x < f c then c else x)) with h2 | h2
    · rw [h2]
      split_ifs with hc
      · exact List.mem_cons_of_mem _ (List.mem_cons_self _ _)
      · exact List.mem_cons_self _ _
    · exact List.mem_cons_of_mem _ (List.mem_cons_of_mem _ h2)

theorem chooseName_mem (arms1 : List (String × ArmStats)) (cs : List String)
    (p : Nat) (e : Bool) (h : cs ≠ []) : chooseName arms1 cs p e ∈ cs := by
  unfold chooseName
  by_cases h1 : (cs.filter (fun c => (getStats arms1 c).pulls == 0)).isEmpty
  · simp only [h1, if_true]
    cases e with
    | true =>
      simp only [if_true]
      exact pickFrom_mem cs p h
    | false =>
      simp only [Bool.false_eq_true, if_false]
      cases cs with
      | nil => exact absurd rfl h
      | cons c rest =>
        exact argmaxBy_mem _ rest c
  · simp only [h1, if_false]
    have hne : cs.filter (fun c => (getStats arms1 c).pulls == 0) ≠ [] := by
      intro hh
      rw [hh] at h1
      exact h1 rfl
    exact (List.mem_filter.mp (pickFrom_mem _ p hne)).1

theorem choose_archetype_fst_mem (st : OptState) (cs : List String) (p : Nat) (e : Bool)
    (h : cs ≠ []) : (choose_archetype st cs p e).1 ∈ cs :=
  chooseName_mem _ cs p e h

theorem choose_archetype_snd (st : OptState) (cs : List String) (p : Nat) (e : Bool) :
    (choose_archetype st cs p e).2 = ⟨st.config, ensureAll st.arms cs⟩ := rfl

theorem getStats_choose_archetype (st : OptState) (cs : List String) (p : Nat) (e : Bool)
    (k : String) : getStats (choose_archetype st cs p e).2.arms k = getStats st.arms k :=
  getStats_ensureAll cs st.arms k

/-! ### setEntry membership lemmas -/

theorem setEntry_self_mem {β : Type} (l : List (String × β)) (k : String) (v : β) :
    (k, v) ∈ setEntry l k v := by
  induction l with
  | nil => simp [setEntry]
  | cons p rest ih =>
    obtain ⟨k₀, v₀⟩ := p
    by_cases h : k₀ = k
    · simp [setEntry, h]
    · simp only [setEntry, if_neg h]
      exact List.mem_cons_of_mem _ ih

theorem mem_setEntry {β : Type} {l : List (String × β)} {k : String} {v : β}
    {p : String × β} (hp : p ∈ setEntry l k v) : p = (k, v) ∨ p ∈ l := by
  induction l with
  | nil =>
    simp [setEntry] at hp
    exact Or.inl hp
  | cons q rest ih =>
    obtain ⟨k₀, v₀⟩ := q
    by_cases h : k₀ = k
    · simp only [setEntry, if_pos h] at hp
      rcases List.mem_cons.mp hp with h2 | h2
      · exact Or.inl h2
      · exact Or.inr (List.mem_cons_of_mem _ h2)
    · simp only [setEntry, if_neg h] at hp
      rcases List.mem_cons.mp hp with h2 | h2
      · exact Or.inr (h2 ▸ List.mem_cons_self _ _)
      · rcases ih h2 with h3 | h3
        · exact Or.inl h3
        · exact Or.inr (List.mem_cons_of_mem _ h3)

theorem setEntry_id {β : Type} {l : List (String × β)} {k : String} {v : β}
    (h : lookupE l k = some v) : setEntry l k v = l := by
  induction l with
  | nil => simp [lookupE] at h
  | cons p rest ih =>
    obtain ⟨k₀, v₀⟩ := p
    by_cases h0 : k₀ = k
    · subst h0
      simp [lookupE] at h
      simp [setEntry, h]
    · have h0' : ¬ k = k₀ := fun hh => h0 hh.symm
      simp only [lookupE, if_neg h0'] at h
      simp [setEntry, h0, ih h]

/-! ### Export / import lemmas -/

theorem export_arm_state_eq (st : OptState) : export_arm_state st = st.arms := by
  rw [export_arm_state,
    show (fun p : String × ArmStats => (p.1, (⟨p.2.pulls, p.2.reward_sum⟩ : ArmStats))) = id from
      funext fun p => rfl,
    List.map_id]

theorem import_arm_state_arms (st : OptState) (m : List (String × ArmStats)) :
    (import_arm_state st m).arms = m.foldl (fun a p => setEntry a p.1 p.2) st.arms := rfl

theorem importFold_id {m : List (String × ArmStats)} :
    ∀ {a : List (String × ArmStats)}, (∀ p ∈ m, lookupE a p.1 = some p.2) →
      m.foldl (fun a p => setEntry a p.1 p.2) a = a := by
  induction m with
  | nil => intro a _; rfl
  | cons q rest ih =>
    intro a h
    have h0 : setEntry a q.1 q.2 = a := setEntry_id (h q (List.mem_cons_self _ _))
    show rest.foldl (fun a p => setEntry a p.1 p.2) (setEntry a q.1 q.2) = a
    rw [h0]
    exact ih (fun p hp => h p (List.mem_cons_of_mem _ hp))

theorem lookupE_importFold_none {m : List (String × ArmStats)} :
    ∀ {a : List (String × ArmStats)} {k : String}, lookupE m k = none →
      lookupE (m.foldl (fun a p => setEntry a p.1 p.2) a) k = lookupE a k := by
  induction m with
  | nil => intro a k _; rfl
  | cons q rest ih =>
    obtain ⟨k₀, v₀⟩ := q
    intro a k h
    by_cases h0 : k = k₀
    · simp [lookupE, h0] at h
    · simp only [lookupE, if_neg h0] at h
      show lookupE (rest.foldl (fun a p => setEntry a p.1 p.2) (setEntry a k₀ v₀)) k = lookupE a k
      rw [ih h, lookupE_setEntry_ne _ _ _ _ h0]

theorem lookupE_importFold_some {m : List (String × ArmStats)}
    (hnd : (m.map Prod.fst).Nodup) :
    ∀ {a : List (String × ArmStats)} {k : String} {v : ArmStats}, lookupE m k = some v →
      lookupE (m.foldl (fun a p => setEntry a p.1 p.2) a) k = some v := by
  induction m with
  | nil => intro a k v h; simp [lookupE] at h
  | cons q rest ih =>
    obtain ⟨k₀, v₀⟩ := q
    simp only [List.map_cons, List.nodup_cons] at hnd
    intro a k v h
    show lookupE (rest.foldl (fun a p => setEntry a p.1 p.2) (setEntry a k₀ v₀)) k = some v
    by_cases h0 : k = k₀
    · subst h0
      simp [lookupE] at h
      subst h
      have hrest : lookupE rest k = none :=
        (lookupE_eq_none_iff rest k).mpr hnd.1
      rw [lookupE_importFold_none hrest, lookupE_setEntry_self]
    · simp only [lookupE, if_neg h0] at h
      exact ih hnd.2 h

/-! ### Split lemmas for the `"::"`-separated arm keys -/

theorem splitColons_sep (l : List Char) (hl : ':' ∉ l) :
    ∀ (acc rest : List Char),
      splitColons (l ++ ':' :: ':' :: rest) acc
        = (acc.reverse ++ l) :: splitColons rest [] := by
  induction l with
  | nil =>
    intro acc rest
    simp [splitColons]
  | cons c l' ih =>
    intro acc rest
    have hc : c ≠ ':' := by
      intro hh
      exact hl (by rw [hh]; exact List.mem_cons_self _ _)
    have hl' : ':' ∉ l' := fun hh => hl (List.mem_cons_of_mem _ hh)
    cases l' with
    | nil =>
      simp [splitColons, hc]
    | cons d l'' =>
      have hcd : ¬ (c = ':' ∧ d = ':') := fun hh => hc hh.1
      simp only [List.cons_append, splitColons, if_neg hcd, List.append_eq]
      rw [show splitColons (d :: (l'' ++ ':' :: ':' :: rest)) (c :: acc)
            = (( c :: acc).reverse ++ d :: l'') :: splitColons rest [] from ih hl' (c :: acc) rest]
      simp

theorem splitColons_no_sep (l : List Char) (hl : ':' ∉ l) :
    ∀ acc, splitColons l acc = [acc.reverse ++ l] := by
  induction l with
  | nil => intro acc; simp [splitColons]
  | cons c l' ih =>
    intro acc
    have hc : c ≠ ':' := by
      intro hh
      exact hl (by rw [hh]; exact List.mem_cons_self _ _)
    have hl' : ':' ∉ l' := fun hh => hl (List.mem_cons_of_mem _ hh)
    cases l' with
    | nil => simp [splitColons]
    | cons d l'' =>
      have hcd : ¬ (c = ':' ∧ d = ':') := fun hh => hc hh.1
      simp only [splitColons, if_neg hcd]
      rw [ih hl' (c :: acc)]
      simp

theorem splitLastColons_mkArmKey (e v : String) (he : ':' ∉ e.data) (hv : ':' ∉ v.data) :
    splitLastColons (mkArmKey e v) = v := by
  have hexp : ("exp::" : String).data = ['e', 'x', 'p'] ++ [':', ':'] := rfl
  have hsep : ("::" : String).data = [':', ':'] := rfl
  have hdata : (mkArmKey e v).data
      = ['e', 'x', 'p'] ++ ':' :: ':' :: (e.data ++ ':' :: ':' :: v.data) := by
    rw [mkArmKey]
    simp [String.data_append, hexp, hsep]
  rw [splitLastColons, hdata, splitColons_sep ['e', 'x', 'p'] (by decide),
    splitColons_sep e.data he, splitColons_no_sep v.data hv]
  simp only [List.reverse_nil, List.nil_append, List.getLastD]
  rfl

/-! ### Step lemmas for optimizer operation traces -/

theorem getStats_register (st : OptState) (a : String) (m : PublishedPostMetrics) (k : String) :
    getStats (register_result st a m).2.arms k =
      if k = a then
        ⟨(getStats st.arms a).pulls + 1,
         (getStats st.arms a).reward_sum + m.score st.config.objective_weights⟩
      else getStats st.arms k := by
  by_cases h : k = a
  · subst h
    simp [register_result, getStats, lookupE_setEntry_self]
  · simp [register_result, getStats, lookupE_setEntry_ne _ _ _ _ h, h]

theorem step_config (st : OptState) (op : OptOp) : (step st op).config = st.config := by
  cases op <;> rfl

theorem pulls_reward_accumulate : ∀ (ops : List OptOp) (st : OptState) (k : String),
    (∀ op ∈ ops, op.isImport = false) →
    (getStats (runOps st ops).arms k).pulls
        = (getStats st.arms k).pulls + registerCount k ops ∧
    (getStats (runOps st ops).arms k).reward_sum
        = (getStats st.arms k).reward_sum + registerRewardSum st.config.objective_weights k ops := by
  intro ops
  induction ops with
  | nil =>
    intro st k h
    simp [runOps, registerCount, registerRewardSum]
  | cons op ops' ih =>
    intro st k h
    have hop : op.isImport = false := h op (List.mem_cons_self _ _)
    have h' : ∀ o ∈ ops', o.isImport = false := fun o ho => h o (List.mem_cons_of_mem _ ho)
    have hrun : runOps st (op :: ops') = runOps (step st op) ops' := rfl
    have IH := ih (step st op) k h'
    rw [step_config] at IH
    cases op with
    | choose cs p e =>
      have hst : getStats (step st (.choose cs p e)).arms k = getStats st.arms k :=
        getStats_choose_archetype st cs p e k
      constructor
      · rw [hrun, IH.1, hst]
        simp [registerCount, List.countP_cons]
      · rw [hrun, IH.2, hst]
        simp [registerRewardSum]
    | register a m =>
      have hst : getStats (step st (.register a m)).arms k =
          if k = a then
            ⟨(getStats st.arms a).pulls + 1,
             (getStats st.arms a).reward_sum + m.score st.config.objective_weights⟩
          else getStats st.arms k := getStats_register st a m k
      by_cases hka : k = a
      · subst hka
        simp only [if_pos rfl] at hst
        constructor
        · rw [hrun, IH.1, hst]
          simp [registerCount, List.countP_cons]
          omega
        · rw [hrun, IH.2, hst]
          simp [registerRewardSum]
          ring
      · simp only [if_neg hka] at hst
        have hka' : ¬ a = k := fun hh => hka hh.symm
        constructor
        · rw [hrun, IH.1, hst]
          simp [registerCount, List.countP_cons, hka']
        · rw [hrun, IH.2, hst]
          simp [registerRewardSum, hka']
    | exportState =>
      constructor
      · rw [hrun, IH.1]
        simp [registerCount, List.countP_cons, step]
      · rw [hrun, IH.2]
        simp [registerRewardSum, step]
    | importState s =>
      simp [OptOp.isImport] at hop

/-! ### Round-trip, idempotence and order-independence of import / export -/

theorem OptState.ext' {s t : OptState} (h1 : s.config = t.config) (h2 : s.arms = t.arms) :
    s = t := by
  cases s
  cases t
  cases h1
  cases h2
  rfl

theorem import_export_roundtrip (st : OptState) (hst : (st.arms.map Prod.fst).Nodup) :
    import_arm_state st (export_arm_state st) = st := by
  refine OptState.ext' rfl ?_
  rw [import_arm_state_arms, export_arm_state_eq]
  exact importFold_id (nodupKeys_lookupE hst)

theorem import_idem (st : OptState) (m : List (String × ArmStats))
    (hm : (m.map Prod.fst).Nodup) :
    import_arm_state (import_arm_state st m) m = import_arm_state st m := by
  refine OptState.ext' rfl ?_
  rw [import_arm_state_arms, import_arm_state_arms]
  apply importFold_id
  intro p hp
  exact lookupE_importFold_some hm (nodupKeys_lookupE hm p hp)

theorem lookupE_perm {β : Type} {m m' : List (String × β)} (hperm : m'.Perm m)
    (hm : (m.map Prod.fst).Nodup) (k : String) : lookupE m' k = lookupE m k := by
  have hm' : (m'.map Prod.fst).Nodup := ((hperm.map Prod.fst).nodup_iff).mpr hm
  cases h : lookupE m k with
  | some v =>
    exact nodupKeys_lookupE hm' (k, v) (hperm.mem_iff.mpr (lookupE_mem h))
  | none =>
    rw [lookupE_eq_none_iff] at h ⊢
    intro hk
    exact h ((hperm.map Prod.fst).mem_iff.mp hk)

theorem import_perm_getStats (st : OptState) {m m' : List (String × ArmStats)}
    (hm : (m.map Prod.fst).Nodup) (hperm : m'.Perm m) (k : String) :
    getStats (import_arm_state st m').arms k = getStats (import_arm_state st m).arms k := by
  have hm' : (m'.map Prod.fst).Nodup := ((hperm.map Prod.fst).nodup_iff).mpr hm
  rw [import_arm_state_arms, import_arm_state_arms]
  unfold getStats
  cases h : lookupE m k with
  | some v =>
    rw [lookupE_importFold_some hm h,
      lookupE_importFold_some hm' (by rw [lookupE_perm hperm hm k]; exact h)]
  | none =>
    rw [lookupE_importFold_none h,
      lookupE_importFold_none (by rw [lookupE_perm hperm hm k]; exact h)]

/-! ### Comparator lemmas for `evaluate_results` -/

theorem tupLe_iff (a b : ℚ × ℚ × ℚ × ℚ) :
    tupLe a b = true ↔
      a.1 < b.1 ∨ (a.1 = b.1 ∧ (a.2.1 < b.2.1 ∨ (a.2.1 = b.2.1 ∧
        (a.2.2.1 < b.2.2.1 ∨ (a.2.2.1 = b.2.2.1 ∧ a.2.2.2 ≤ b.2.2.2))))) := by
  simp only [tupLe]
  split_ifs with h1 h2 h3 h4 h5 h6
  · simp only [true_iff]
    exact Or.inl h1
  · simp only [Bool.false_eq_true, false_iff]
    rintro (h | ⟨heq, -⟩) <;> linarith
  · have e1 : a.1 = b.1 := le_antisymm (not_lt.mp h2) (not_lt.mp h1)
    simp only [true_iff]
    exact Or.inr ⟨e1, Or.inl h3⟩
  · simp only [Bool.false_eq_true, false_iff]
    rintro (h | ⟨e1, h | ⟨e2, -⟩⟩) <;> linarith
  · have e1 : a.1 = b.1 := le_antisymm (not_lt.mp h2) (not_lt.mp h1)
    have e2 : a.2.1 = b.2.1 := le_antisymm (not_lt.mp h4) (not_lt.mp h3)
    simp only [true_iff]
    exact Or.inr ⟨e1, Or.inr ⟨e2, Or.inl h5⟩⟩
  · simp only [Bool.false_eq_true, false_iff]
    rintro (h | ⟨e1, h | ⟨e2, h | ⟨e3, -⟩⟩⟩) <;> linarith
  · have e1 : a.1 = b.1 := le_antisymm (not_lt.mp h2) (not_lt.mp h1)
    have e2 : a.2.1 = b.2.1 := le_antisymm (not_lt.mp h4) (not_lt.mp h3)
    have e3 : a.2.2.1 = b.2.2.1 := le_antisymm (not_lt.mp h6) (not_lt.mp h5)
    simp only [decide_eq_true_eq]
    constructor
    · intro h
      exact Or.inr ⟨e1, Or.inr ⟨e2, Or.inr ⟨e3, h⟩⟩⟩
    · rintro (h | ⟨-, h | ⟨-, h | ⟨-, h⟩⟩⟩) <;> linarith

theorem tupLe_total (a b : ℚ × ℚ × ℚ × ℚ) : (tupLe a b || tupLe b a) = true := by
  rw [Bool.or_eq_true, tupLe_iff, tupLe_iff]
  rcases lt_trichotomy a.1 b.1 with h1 | h1 | h1
  · exact Or.inl (Or.inl h1)
  · rcases lt_trichotomy a.2.1 b.2.1 with h2 | h2 | h2
    · exact Or.inl (Or.inr ⟨h1, Or.inl h2⟩)
    · rcases lt_trichotomy a.2.2.1 b.2.2.1 with h3 | h3 | h3
      · exact Or.inl (Or.inr ⟨h1, Or.inr ⟨h2, Or.inl h3⟩⟩)
      · rcases le_total a.2.2.2 b.2.2.2 with h4 | h4
        · exact Or.inl (Or.inr ⟨h1, Or.inr ⟨h2, Or.inr ⟨h3, h4⟩⟩⟩)
        · exact Or.inr (Or.inr ⟨h1.symm, Or.inr ⟨h2.symm, Or.inr ⟨h3.symm, h4⟩⟩⟩)
      · exact Or.inr (Or.inr ⟨h1.symm, Or.inr ⟨h2.symm, Or.inl h3⟩⟩)
    · exact Or.inr (Or.inr ⟨h1.symm, Or.inl h2⟩)
  · exact Or.inr (Or.inl h1)

theorem tupLe_trans {a b c : ℚ × ℚ × ℚ × ℚ} (h1 : tupLe a b = true) (h2 : tupLe b c = true) :
    tupLe a c = true := by
  rw [tupLe_iff] at h1 h2 ⊢
  rcases h1 with h1 | ⟨e11, h1⟩
  · left
    rcases h2 with h2 | ⟨e21, -⟩ <;> linarith
  · rcases h2 with h2 | ⟨e21, h2⟩
    · left
      linarith
    · right
      refine ⟨e11.trans e21, ?_⟩
      rcases h1 with h1 | ⟨e12, h1⟩
      · left
        rcases h2 with h2 | ⟨e22, -⟩ <;> linarith
      · rcases h2 with h2 | ⟨e22, h2⟩
        · left
          linarith
        · right
          refine ⟨e12.trans e22, ?_⟩
          rcases h1 with h1 | ⟨e13, h1⟩
          · left
            rcases h2 with h2 | ⟨e23, -⟩ <;> linarith
          · rcases h2 with h2 | ⟨e23, h2⟩
            · left
              linarith
            · exact Or.inr ⟨e13.trans e23, h1.trans h2⟩

theorem outcomeGe_total (a b : ExperimentOutcome) :
    (outcomeGe a b || outcomeGe b a) = true :=
  tupLe_total (outcomeKey b) (outcomeKey a)

theorem outcomeGe_trans (a b c : ExperimentOutcome) (h1 : outcomeGe a b = true)
    (h2 : outcomeGe b c = true) : outcomeGe a c = true :=
  tupLe_trans h2 h1

theorem winner_count_le (n : ℕ) (hn : 1 ≤ n) :
    max 1 (round ((n : ℚ) * 0.4)).toNat ≤ n := by
  have h1 : ((n : ℚ) * 0.4) ≤ (n : ℚ) := by
    nlinarith [Nat.cast_nonneg (α := ℚ) n]
  have h2 : round ((n : ℚ) * 0.4) ≤ (n : ℤ) := by
    rw [round_eq]
    calc ⌊(n : ℚ) * 0.4 + 1 / 2⌋ ≤ ⌊(n : ℚ) + 1 / 2⌋ := Int.floor_le_floor (by linarith)
      _ = (n : ℤ) := by
          rw [show ((n : ℚ) + 1 / 2) = (((n : ℤ) : ℚ) + 1 / 2) by push_cast; ring,
            Int.floor_int_add]
          norm_num
  exact max_le hn (Int.toNat_le.mpr h2)

/-! ### Weight-sum lemmas for `strategy_apply` -/

theorem nudgeWeights_nonneg {stp : ℚ} {ws : List (String × ℚ)} {kv : String × ℚ}
    (h : ∀ p ∈ ws, 0 ≤ p.2) : ∀ p ∈ nudgeWeights stp ws kv, 0 ≤ p.2 := by
  unfold nudgeWeights
  cases lookupE KPI_TO_WEIGHT kv.1 with
  | none => exact h
  | some mk =>
    intro p hp
    rcases mem_setEntry hp with h2 | h2
    · rw [h2]
      exact le_trans (by norm_num) (le_max_left _ _)
    · exact h p h2

theorem nudgeWeights_pos {stp : ℚ} {ws : List (String × ℚ)} {kv : String × ℚ}
    (h : ∃ p ∈ ws, 0 < p.2) : ∃ p ∈ nudgeWeights stp ws kv, 0 < p.2 := by
  unfold nudgeWeights
  cases lookupE KPI_TO_WEIGHT kv.1 with
  | none => exact h
  | some mk =>
    refine ⟨(mk, max 0.01 (getWeight ws mk 0.01 + stp * (if kv.2 < 0 then -1 else 1))),
      setEntry_self_mem _ _ _, ?_⟩
    exact lt_of_lt_of_le (by norm_num) (le_max_left _ _)

theorem nudgeFold_nonneg (ds : List (String × ℚ)) (stp : ℚ) :
    ∀ (ws : List (String × ℚ)), (∀ p ∈ ws, 0 ≤ p.2) →
      ∀ p ∈ ds.foldl (nudgeWeights stp) ws, 0 ≤ p.2 := by
  induction ds with
  | nil => intro ws h; exact h
  | cons d ds' ih =>
    intro ws h
    exact ih (nudgeWeights stp ws d) (nudgeWeights_nonneg h)

theorem nudgeFold_pos (ds : List (String × ℚ)) (stp : ℚ) :
    ∀ (ws : List (String × ℚ)), (∃ p ∈ ws, 0 < p.2) →
      ∃ p ∈ ds.foldl (nudgeWeights stp) ws, 0 < p.2 := by
  induction ds with
  | nil => intro ws h; exact h
  | cons d ds' ih =>
    intro ws h
    exact ih (nudgeWeights stp ws d) (nudgeWeights_pos h)

theorem weights_sum_pos {ws : List (String × ℚ)} (h0 : ∀ p ∈ ws, 0 ≤ p.2)
    (h1 : ∃ p ∈ ws, 0 < p.2) : 0 < (ws.map Prod.snd).sum := by
  obtain ⟨p, hp, hppos⟩ := h1
  have hmem : p.2 ∈ ws.map Prod.snd := List.mem_map_of_mem _ hp
  have hle : p.2 ≤ (ws.map Prod.snd).sum := by
    apply List.single_le_sum _ _ hmem
    intro x hx
    obtain ⟨q, hq, rfl⟩ := List.mem_map.mp hx
    exact h0 q hq
  linarith

theorem normalized_sum_eq_one {ws : List (String × ℚ)} (h : 0 < (ws.map Prod.snd).sum) :
    ((ws.map (fun p => (p.1, p.2 / (ws.map Prod.snd).sum))).map Prod.snd).sum = 1 := by
  set t := (ws.map Prod.snd).sum with ht
  rw [List.map_map]
  have hcomp : (Prod.snd ∘ fun p : String × ℚ => (p.1, p.2 / t)) = fun p : String × ℚ => p.2 * t⁻¹ := by
    funext p
    simp [div_eq_mul_inv]
  rw [hcomp, List.sum_map_mul_right, ← ht, mul_inv_cancel₀ (ne_of_gt h)]

/-! ### Branch lemmas for `chooseName` -/

theorem isEmpty_false_of_ne_nil {α : Type} {l : List α} (h : l ≠ []) : l.isEmpty = false := by
  cases l with
  | nil => exact absurd rfl h
  | cons a t => rfl

theorem chooseName_unseen (arms1 : List (String × ArmStats)) (cs : List String)
    (p : Nat) (e : Bool) (h : cs.filter (fun c => (getStats arms1 c).pulls == 0) ≠ []) :
    chooseName arms1 cs p e
      = pickFrom (cs.filter (fun c => (getStats arms1 c).pulls == 0)) p := by
  simp [chooseName, isEmpty_false_of_ne_nil h]

theorem chooseName_seen (arms1 : List (String × ArmStats)) (cs : List String)
    (p : Nat) (e : Bool) (hne : cs ≠ [])
    (h : cs.filter (fun c => (getStats arms1 c).pulls == 0) = []) :
    chooseName arms1 cs p e =
      if e then pickFrom cs p
      else argmaxBy (fun x => (getStats arms1 x).avg_reward) (cs.headD "") cs.tail := by
  cases cs with
  | nil => exact absurd rfl hne
  | cons c rest => simp [chooseName, h]

/-! ### Projection lemmas for `evaluate_results` -/

theorem evaluate_results_winners (l : List ExperimentOutcome) (h : l.isEmpty = false) :
    (evaluate_results l).winners
      = ((l.mergeSort outcomeGe).take
          (max 1 (round (((l.mergeSort outcomeGe).length : ℚ) * 0.4)).toNat)).map
        ExperimentOutcome.niche_name := by
  unfold evaluate_results
  rw [h]
  simp

theorem evaluate_results_kill (l : List ExperimentOutcome) (h : l.isEmpty = false) :
    (evaluate_results l).kill_list
      = ((l.mergeSort outcomeGe).drop
          (max 1 (round (((l.mergeSort outcomeGe).length : ℚ) * 0.4)).toNat)).map
        ExperimentOutcome.niche_name := by
  unfold evaluate_results
  rw [h]
  simp

theorem mem_qualifying {arm_state : List (String × ArmStats)} {eid : String}
    {variants : List String} {minS : Nat} {p : String × ArmStats}
    (hp : p ∈ qualifying arm_state eid variants minS) :
    p.1 ∈ variants ∧ lookupE arm_state (mkArmKey eid p.1) = some p.2 ∧ minS ≤ p.2.pulls := by
  rw [qualifying] at hp
  obtain ⟨v, hv, hfv⟩ := List.mem_filterMap.mp hp
  cases hlk : lookupE arm_state (mkArmKey eid v) with
  | none =>
    rw [hlk] at hfv
    cases hfv
  | some s =>
    rw [hlk] at hfv
    simp only [Option.some_bind] at hfv
    by_cases hps : minS ≤ s.pulls
    · rw [if_pos hps] at hfv
      have hvp : (v, s) = p := by
        injection hfv
      rw [← hvp]
      exact ⟨hv, hlk, hps⟩
    · rw [if_neg hps] at hfv
      cases hfv

/-! ### Claims -/

/-- C1: over any non-empty candidate list, whenever some candidate is unseen
(`pulls = 0` in the pre-state, missing keys reading as fresh stats), the key
returned by `choose_archetype` is one of the unseen candidates, for every
randomness oracle; and only when every candidate is seen does the
epsilon-greedy branch run (coin flip yields a random candidate, otherwise the
first `avg_reward` maximum). -/
theorem claim_C1_unseen_before_exploit (st : OptState) (cands : List String)
    (pick : Nat) (explore : Bool) (hne : cands ≠ []) :
    ((∃ c ∈ cands, (getStats st.arms c).pulls = 0) →
      (choose_archetype st cands pick explore).1
        ∈ cands.filter (fun c => (getStats st.arms c).pulls == 0)) ∧
    ((∀ c ∈ cands, (getStats st.arms c).pulls ≠ 0) →
      (choose_archetype st cands pick explore).1 =
        if explore then pickFrom cands pick
        else argmaxBy (fun x => (getStats st.arms x).avg_reward) (cands.headD "") cands.tail) := by
  have hfun : (fun x => (getStats (ensureAll st.arms cands) x).avg_reward)
      = (fun x => (getStats st.arms x).avg_reward) :=
    funext fun k => by rw [getStats_ensureAll]
  have hfilter : cands.filter (fun c => (getStats (ensureAll st.arms cands) c).pulls == 0)
      = cands.filter (fun c => (getStats st.arms c).pulls == 0) := by
    apply List.filter_congr
    intro c hc
    rw [getStats_ensureAll]
  constructor
  · rintro ⟨c, hc, hp⟩
    have hne2 : cands.filter (fun c => (getStats st.arms c).pulls == 0) ≠ [] :=
      List.ne_nil_of_mem (List.mem_filter.mpr ⟨hc, by simp [hp]⟩)
    have hres : (choose_archetype st cands pick explore).1
        = pickFrom (cands.filter (fun c => (getStats st.arms c).pulls == 0)) pick := by
      show chooseName (ensureAll st.arms cands) cands pick explore = _
      rw [chooseName_unseen _ _ _ _ (by rw [hfilter]; exact hne2), hfilter]
    rw [hres]
    exact pickFrom_mem _ _ hne2
  · intro hall
    have hnil : cands.filter (fun c => (getStats st.arms c).pulls == 0) = [] := by
      rw [List.filter_eq_nil_iff]
      intro c hc
      simpa using hall c hc
    show chooseName (ensureAll st.arms cands) cands pick explore = _
    rw [chooseName_seen _ _ _ _ hne (by rw [hfilter]; exact hnil), hfun]

/-- C1 witness: a two-candidate instance with one seen and one unseen arm. -/
theorem claim_C1_witness :
    ((["a", "b"] : List String) ≠ []) ∧
    (((∃ c ∈ ["a", "b"], (getStats c1st.arms c).pulls = 0) →
      (choose_archetype c1st ["a", "b"] 0 false).1
        ∈ (["a", "b"] : List String).filter (fun c => (getStats c1st.arms c).pulls == 0)) ∧
     ((∀ c ∈ ["a", "b"], (getStats c1st.arms c).pulls ≠ 0) →
      (choose_archetype c1st ["a", "b"] 0 false).1 =
        if false then pickFrom ["a", "b"] 0
        else argmaxBy (fun x => (getStats c1st.arms x).avg_reward)
          ((["a", "b"] : List String).headD "") (["a", "b"] : List String).tail)) :=
  ⟨by decide, claim_C1_unseen_before_exploit c1st ["a", "b"] 0 false (by decide)⟩

/-- C3 counterexample: `register_result` on arm "a" brings its pulls to 1, and
a subsequent `import_arm_state` with `{a: (pulls 0, reward 0)}` overwrites it
back to 0 — so over sequences containing `import_arm_state`, pulls decrease. -/
theorem claim_C3_counterexample :
    (getStats (runOps st0 [.register "a" mOneView]).arms "a").pulls = 1 ∧
    (getStats (runOps st0 [.register "a" mOneView, .importState [("a", ⟨0, 0⟩)]]).arms "a").pulls
      = 0 := by
  constructor
  · decide
  · decide

/-- C3 (amended): over any operation sequence free of `import_arm_state`, an
arm's `pulls` never decreases — it grows by exactly the number of
`register_result` calls on that key — and its `reward_sum` is only
accumulated, growing by exactly the rewards of those calls.  An
`import_arm_state` call instead overwrites both fields. -/
theorem claim_C3_no_import_accumulates (st : OptState) (ops : List OptOp) (k : String)
    (h : ∀ op ∈ ops, op.isImport = false) :
    (getStats st.arms k).pulls ≤ (getStats (runOps st ops).arms k).pulls ∧
    (getStats (runOps st ops).arms k).pulls
      = (getStats st.arms k).pulls + registerCount k ops ∧
    (getStats (runOps st ops).arms k).reward_sum
      = (getStats st.arms k).reward_sum
        + registerRewardSum st.config.objective_weights k ops := by
  have H := pulls_reward_accumulate ops st k h
  refine ⟨?_, H.1, H.2⟩
  rw [H.1]
  exact Nat.le_add_right _ _

/-- C3 witness: a concrete import-free trace of one choose and one register. -/
theorem claim_C3_witness :
    (∀ op ∈ [OptOp.choose ["a", "b"] 0 false, OptOp.register "a" mOneView],
      op.isImport = false) ∧
    ((getStats st0.arms "a").pulls
        ≤ (getStats (runOps st0 [OptOp.choose ["a", "b"] 0 false,
            OptOp.register "a" mOneView]).arms "a").pulls ∧
     (getStats (runOps st0 [OptOp.choose ["a", "b"] 0 false,
        OptOp.register "a" mOneView]).arms "a").pulls
       = (getStats st0.arms "a").pulls
         + registerCount "a" [OptOp.choose ["a", "b"] 0 false, OptOp.register "a" mOneView] ∧
     (getStats (runOps st0 [OptOp.choose ["a", "b"] 0 false,
        OptOp.register "a" mOneView]).arms "a").reward_sum
       = (getStats st0.arms "a").reward_sum
         + registerRewardSum st0.config.objective_weights "a"
             [OptOp.choose ["a", "b"] 0 false, OptOp.register "a" mOneView]) :=
  ⟨by decide,
   claim_C3_no_import_accumulates st0
     [OptOp.choose ["a", "b"] 0 false, OptOp.register "a" mOneView] "a" (by decide)⟩

/-- C4: importing the exported state is a no-op on states with distinct arm
keys; importing a fixed mapping is idempotent; and importing any permutation
of a mapping yields the same arm statistics for every key.  (The defensive
copy built by `export_arm_state` is the fresh entry-by-entry rebuild in its
definition; aliasing itself has no counterpart in this pure embedding.) -/
theorem claim_C4_roundtrip_idem_order (st : OptState) (m m' : List (String × ArmStats))
    (hst : (st.arms.map Prod.fst).Nodup) (hm : (m.map Prod.fst).Nodup)
    (hperm : m'.Perm m) :
    import_arm_state st (export_arm_state st) = st ∧
    import_arm_state (import_arm_state st m) m = import_arm_state st m ∧
    ∀ k, getStats (import_arm_state st m').arms k
      = getStats (import_arm_state st m).arms k :=
  ⟨import_export_roundtrip st hst, import_idem st m hm,
   fun k => import_perm_getStats st hm hperm k⟩

/-- C4 witness: a one-arm state with a two-entry import mapping and its
reversal. -/
theorem claim_C4_witness :
    ((c4st.arms.map Prod.fst).Nodup ∧ (c4m.map Prod.fst).Nodup ∧ c4m'.Perm c4m) ∧
    (import_arm_state c4st (export_arm_state c4st) = c4st ∧
     import_arm_state (import_arm_state c4st c4m) c4m = import_arm_state c4st c4m ∧
     ∀ k, getStats (import_arm_state c4st c4m').arms k
       = getStats (import_arm_state c4st c4m).arms k) :=
  ⟨⟨by decide, by decide, by decide⟩,
   claim_C4_roundtrip_idem_order c4st c4m c4m' (by decide) (by decide) (by decide)⟩

/-- C5: when every variant either has no recorded arm state or sits strictly
below `min_sample_size_for_winner`, `promote_winner` returns
`{winner := none, promoted := false, archived := false}` and persists nothing,
whether or not a repository is configured. -/
theorem claim_C5_below_threshold (st : OptState) (repo : Bool) (sv eid : String)
    (variants : List String) (minS : Nat)
    (h : ∀ v ∈ variants,
      lookupE (export_arm_state st) (mkArmKey eid v) = none ∨
      (getStats (export_arm_state st) (mkArmKey eid v)).pulls < minS) :
    promote_winner st repo sv eid variants minS = (⟨none, false, false⟩, []) := by
  have hq : qualifying (export_arm_state st) eid variants minS = [] := by
    rw [qualifying, List.filterMap_eq_nil_iff]
    intro v hv
    cases hlk : lookupE (export_arm_state st) (mkArmKey eid v) with
    | none => rfl
    | some s =>
      rcases h v hv with h2 | h2
      · rw [hlk] at h2
        cases h2
      · rw [getStats, hlk] at h2
        simp only [Option.getD_some] at h2
        simp [Nat.not_le.mpr h2]
  unfold promote_winner
  simp [hq]

/-- C5 witness: one variant below the threshold, one with no recorded state. -/
theorem claim_C5_witness :
    (∀ v ∈ ["a", "b"],
      lookupE (export_arm_state c5st) (mkArmKey "e1" v) = none ∨
      (getStats (export_arm_state c5st) (mkArmKey "e1" v)).pulls < 20) ∧
    promote_winner c5st true "1.0" "e1" ["a", "b"] 20 = (⟨none, false, false⟩, []) :=
  ⟨by decide, claim_C5_below_threshold c5st true "1.0" "e1" ["a", "b"] 20 (by decide)⟩

/-- C2 counterexample: on 3 outcomes the code produces 1 winner, via Python
`round(3 * 0.4) = 1`, whereas the claim's `ceil(0.4 * 3) = 2`. -/
theorem claim_C2_counterexample :
    (evaluate_results [oc1, oc2, oc3]).winners.length = 1 ∧
    Nat.ceil ((3 : ℚ) * 0.4) = 2 := by
  constructor
  · rw [evaluate_results_winners [oc1, oc2, oc3] rfl, List.length_map, List.length_take,
      (List.mergeSort_perm [oc1, oc2, oc3] outcomeGe).length_eq]
    norm_num [round_eq]
  · rw [show ((3 : ℚ) * 0.4) = 6 / 5 by norm_num, Nat.ceil_eq_iff (by norm_num)]
    norm_num

/-- C2 (amended): `evaluate_results` over N outcomes returns exactly
`max(1, round(0.4 * N))` winners — round-to-nearest, which never ties here —
with the remaining names in `kill_list`, the two lists together being the
descending tuple-sorted outcome names (a permutation of the input, pairwise
ordered by the comparator). -/
theorem claim_C2_winner_split (outcomes : List ExperimentOutcome) (h : outcomes ≠ []) :
    (evaluate_results outcomes).winners.length
        = max 1 (round ((outcomes.length : ℚ) * 0.4)).toNat ∧
    (evaluate_results outcomes).kill_list.length
        = outcomes.length - max 1 (round ((outcomes.length : ℚ) * 0.4)).toNat ∧
    (evaluate_results outcomes).winners ++ (evaluate_results outcomes).kill_list
        = (outcomes.mergeSort outcomeGe).map ExperimentOutcome.niche_name ∧
    (outcomes.mergeSort outcomeGe).Perm outcomes ∧
    (outcomes.mergeSort outcomeGe).Pairwise (fun a b => outcomeGe a b = true) := by
  have hempty : outcomes.isEmpty = false := isEmpty_false_of_ne_nil h
  have hlen : (outcomes.mergeSort outcomeGe).length = outcomes.length :=
    (List.mergeSort_perm outcomes outcomeGe).length_eq
  have hpos : 1 ≤ outcomes.length := List.length_pos.mpr h
  have hwc : max 1 (round ((outcomes.length : ℚ) * 0.4)).toNat ≤ outcomes.length :=
    winner_count_le _ hpos
  refine ⟨?_, ?_, ?_, List.mergeSort_perm outcomes outcomeGe,
    List.sorted_mergeSort (fun a b c => outcomeGe_trans a b c)
      (fun a b => outcomeGe_total a b) outcomes⟩
  · rw [evaluate_results_winners _ hempty, List.length_map, List.length_take, hlen]
    exact Nat.min_eq_left hwc
  · rw [evaluate_results_kill _ hempty, List.length_map, List.length_drop, hlen]
  · rw [evaluate_results_winners _ hempty, evaluate_results_kill _ hempty,
      ← List.map_append, List.take_append_drop]

/-- C2 witness: the five-outcome scenario (2 winners, 3 killed). -/
theorem claim_C2_witness :
    (c2outs ≠ []) ∧
    ((evaluate_results c2outs).winners.length
        = max 1 (round ((c2outs.length : ℚ) * 0.4)).toNat ∧
     (evaluate_results c2outs).kill_list.length
        = c2outs.length - max 1 (round ((c2outs.length : ℚ) * 0.4)).toNat ∧
     (evaluate_results c2outs).winners ++ (evaluate_results c2outs).kill_list
        = (c2outs.mergeSort outcomeGe).map ExperimentOutcome.niche_name ∧
     (c2outs.mergeSort outcomeGe).Perm c2outs ∧
     (c2outs.mergeSort outcomeGe).Pairwise (fun a b => outcomeGe a b = true)) :=
  ⟨by simp [c2outs], claim_C2_winner_split c2outs (by simp [c2outs])⟩

/-- C6: whenever `promote_winner` (with a repository configured) reports a
winner `w`, the winner qualified from the exported state, and the single
persisted record carries arm key `winner::eid::w`, the winner's pulls, and —
in the `reward_sum` field — the winner's `avg_reward`, not its reward sum. -/
theorem claim_C6_marker_stores_avg (st : OptState) (sv eid : String)
    (variants : List String) (minS : Nat) (w : String)
    (hw : (promote_winner st true sv eid variants minS).1.winner = some w) :
    ∃ s : ArmStats,
      lookupE (export_arm_state st) (mkArmKey eid w) = some s ∧
      minS ≤ s.pulls ∧
      (promote_winner st true sv eid variants minS).2 =
        [⟨"winner::" ++ eid ++ "::" ++ w, s.pulls, s.avg_reward, sv, "system"⟩] := by
  cases hq : qualifying (export_arm_state st) eid variants minS with
  | nil =>
    rw [show promote_winner st true sv eid variants minS = (⟨none, false, false⟩, []) from by
      unfold promote_winner
      simp [hq]] at hw
    cases hw
  | cons c rest =>
    set X := argmaxBy (fun p : String × ArmStats => p.2.avg_reward) c rest with hX
    have hpw : promote_winner st true sv eid variants minS =
        (⟨some X.1, true, false⟩,
         [⟨"winner::" ++ eid ++ "::" ++ X.1, X.2.pulls, X.2.avg_reward, sv, "system"⟩]) := by
      unfold promote_winner
      simp [hq, persist_marker, hX]
    have hmem : X ∈ c :: rest := hX ▸ argmaxBy_mem _ rest c
    rw [← hq] at hmem
    obtain ⟨hv, hlk, hp⟩ := mem_qualifying hmem
    rw [hpw] at hw
    simp only [Option.some.injEq] at hw
    refine ⟨X.2, ?_, hp, ?_⟩
    · rw [← hw]
      exact hlk
    · rw [hpw, hw]

/-- C6 witness: the promotion scenario where variant "a" (pulls 2, reward 16)
beats variant "b" (pulls 2, reward 4) at threshold 2; the persisted record
stores avg reward 8, not 16. -/
theorem claim_C6_witness :
    ((promote_winner c6st true "1.0" "e1" ["a", "b"] 2).1.winner = some "a") ∧
    (∃ s : ArmStats,
      lookupE (export_arm_state c6st) (mkArmKey "e1" "a") = some s ∧
      2 ≤ s.pulls ∧
      (promote_winner c6st true "1.0" "e1" ["a", "b"] 2).2 =
        [⟨"winner::" ++ "e1" ++ "::" ++ "a", s.pulls, s.avg_reward, "1.0", "system"⟩]) :=
by
  have hq6 : qualifying (export_arm_state c6st) "e1" ["a", "b"] 2
      = [("a", ⟨2, 16⟩), ("b", ⟨2, 4⟩)] := by
    decide
  have hw6 : (promote_winner c6st true "1.0" "e1" ["a", "b"] 2).1.winner = some "a" := by
    unfold promote_winner
    norm_num [hq6, argmaxBy, ArmStats.avg_reward]
  exact ⟨hw6, claim_C6_marker_stores_avg c6st "1.0" "e1" ["a", "b"] 2 "a" hw6⟩

/-- C7: inside the cooldown window (`hours_since_mode_change < 6`) the
controller keeps the current mode with rationale `["cooldown_active"]`
regardless of every other input, and still returns the explore coefficient
recomputed as the clamped, 4-decimal-rounded update. -/
theorem claim_C7_cooldown (current_mode : String) (explore_coef : ℚ) (inputs : ModeInputs)
    (h : inputs.hours_since_mode_change < 6) :
    mode_decide current_mode explore_coef inputs =
      ⟨current_mode,
       round4 (min 0.8 (max 0.05 (explore_coef + (0.2 - inputs.drawdown_24h) * 0.1
         + inputs.monetization_drift * 0.05))),
       ["cooldown_active"]⟩ := by
  unfold mode_decide
  simp [h]

/-- C7 witness: cooldown inputs whose fatigue would otherwise flip exploit to
explore. -/
theorem claim_C7_witness :
    (c7inputs.hours_since_mode_change < 6) ∧
    mode_decide "exploit" 0.2 c7inputs =
      ⟨"exploit",
       round4 (min 0.8 (max 0.05 ((0.2 : ℚ) + (0.2 - c7inputs.drawdown_24h) * 0.1
         + c7inputs.monetization_drift * 0.05))),
       ["cooldown_active"]⟩ :=
  ⟨by decide, claim_C7_cooldown "exploit" 0.2 c7inputs (by decide)⟩

/-- C8 counterexample: the config `{views: 1, junk: -1}` has a positive weight,
yet with no deltas the nudged total is 0, renormalization is skipped, and the
returned weights sum to 0, not 1. -/
theorem claim_C8_counterexample :
    (∃ p ∈ c8badConfig.objective_weights, 0 < p.2) ∧
    (((strategy_apply "growth" [] c8badConfig 0.03).1.adjusted_weights.map Prod.snd).sum
      = 0) := by
  constructor
  · exact ⟨("views", 1), by simp [c8badConfig], by norm_num⟩
  · norm_num [strategy_apply, c8badConfig]

/-- C8 (amended): when every objective weight is nonnegative and at least one
is positive, `apply` returns weights summing exactly to 1 (each mapped KPI
delta having nudged its weight by `±adjustment_step` floored at 0.01, unmapped
names ignored), and installs the same weights into the config. -/
theorem claim_C8_normalizes (objective : String) (kpi_deltas : List (String × ℚ))
    (optimization : OptimizationConfig) (adjustment_step : ℚ)
    (h0 : ∀ p ∈ optimization.objective_weights, 0 ≤ p.2)
    (h1 : ∃ p ∈ optimization.objective_weights, 0 < p.2) :
    (((strategy_apply objective kpi_deltas optimization adjustment_step).1.adjusted_weights.map
        Prod.snd).sum = 1) ∧
    (strategy_apply objective kpi_deltas optimization adjustment_step).2.objective_weights
      = (strategy_apply objective kpi_deltas optimization adjustment_step).1.adjusted_weights := by
  have htot : 0 < ((kpi_deltas.foldl (nudgeWeights adjustment_step)
      optimization.objective_weights).map Prod.snd).sum :=
    weights_sum_pos
      (nudgeFold_nonneg kpi_deltas adjustment_step optimization.objective_weights h0)
      (nudgeFold_pos kpi_deltas adjustment_step optimization.objective_weights h1)
  constructor
  · unfold strategy_apply
    simp only []
    rw [if_pos htot]
    exact normalized_sum_eq_one htot
  · rfl

/-- C8 witness: the default weights with one positive and one negative delta. -/
theorem claim_C8_witness :
    ((∀ p ∈ defaultOptimizationConfig.objective_weights, 0 ≤ p.2) ∧
     (∃ p ∈ defaultOptimizationConfig.objective_weights, 0 < p.2)) ∧
    ((((strategy_apply "growth" [("reach_delta", 0.5), ("save_delta", -0.2)]
          defaultOptimizationConfig 0.03).1.adjusted_weights.map Prod.snd).sum = 1) ∧
     (strategy_apply "growth" [("reach_delta", 0.5), ("save_delta", -0.2)]
          defaultOptimizationConfig 0.03).2.objective_weights
       = (strategy_apply "growth" [("reach_delta", 0.5), ("save_delta", -0.2)]
          defaultOptimizationConfig 0.03).1.adjusted_weights) :=
  ⟨⟨by norm_num [defaultOptimizationConfig],
    ⟨("views", 0.10), by simp [defaultOptimizationConfig], by norm_num⟩⟩,
   claim_C8_normalizes "growth" [("reach_delta", 0.5), ("save_delta", -0.2)]
     defaultOptimizationConfig 0.03
     (by norm_num [defaultOptimizationConfig])
     ⟨("views", 0.10), by simp [defaultOptimizationConfig], by norm_num⟩⟩

/-- C9 counterexample: with variant name "a::b" the arm key splits into more
segments and `split("::")[-1]` returns "b", which is not a supplied variant. -/
theorem claim_C9_counterexample :
    (assign_variant st0 "e1" ["a::b"] 0 false).1 = "b" ∧
    ("b" : String) ∉ (["a::b"] : List String) := by
  constructor
  · decide
  · decide

/-- C9 (amended): provided the experiment id and the variant names contain no
colon character (so no "::" can arise inside or across the key junctions),
`assign_variant` builds keys `exp::eid::variant` and returns one of the
caller-supplied variant names with the namespace prefix stripped. -/
theorem claim_C9_assign_returns_variant (st : OptState) (eid : String)
    (variants : List String) (pick : Nat) (explore : Bool) (h : variants ≠ [])
    (he : ':' ∉ eid.data) (hv : ∀ v ∈ variants, ':' ∉ v.data) :
    (assign_variant st eid variants pick explore).1 ∈ variants := by
  have hmapne : variants.map (mkArmKey eid) ≠ [] := by
    intro hh
    exact h (List.map_eq_nil_iff.mp hh)
  have hmem := choose_archetype_fst_mem st (variants.map (mkArmKey eid)) pick explore hmapne
  obtain ⟨v, hvmem, hveq⟩ := List.mem_map.mp hmem
  show splitLastColons (choose_archetype st (variants.map (mkArmKey eid)) pick explore).1
    ∈ variants
  rw [← hveq, splitLastColons_mkArmKey eid v he (hv v hvmem)]
  exact hvmem

/-- C9 witness: two colon-free variants under a colon-free experiment id. -/
theorem claim_C9_witness :
    ((["a", "b"] : List String) ≠ [] ∧ ':' ∉ ("e1" : String).data ∧
     (∀ v ∈ (["a", "b"] : List String), ':' ∉ v.data)) ∧
    (assign_variant st0 "e1" ["a", "b"] 0 false).1 ∈ (["a", "b"] : List String) :=
  ⟨⟨by decide, by decide, by decide⟩,
   claim_C9_assign_returns_variant st0 "e1" ["a", "b"] 0 false
     (by decide) (by decide) (by decide)⟩

/-- C10: `choose_archetype` lazily creates every offered candidate in the arms
mapping — after the call each candidate key is present in the exported state,
and a candidate that was absent beforehand is present with pulls 0 and
reward_sum 0, even though it may never have been returned or registered. -/
theorem claim_C10_lazy_creation (st : OptState) (cands : List String) (pick : Nat)
    (explore : Bool) (c : String) (hc : c ∈ cands) :
    (lookupE (export_arm_state (choose_archetype st cands pick explore).2) c).isSome = true ∧
    (lookupE st.arms c = none →
      lookupE (export_arm_state (choose_archetype st cands pick explore).2) c
        = some ⟨0, 0⟩) := by
  have harms : (choose_archetype st cands pick explore).2.arms = ensureAll st.arms cands := rfl
  rw [export_arm_state_eq, harms]
  exact ⟨lookupE_ensureAll_isSome cands hc, fun h0 => lookupE_ensureAll_new cands hc h0⟩

/-- C10 witness: a candidate never returned ("a" wins the cold start pick)
still appears in the exported state with fresh stats. -/
theorem claim_C10_witness :
    (("b" : String) ∈ (["a", "b"] : List String)) ∧
    ((lookupE (export_arm_state (choose_archetype st0 ["a", "b"] 0 false).2) "b").isSome
        = true ∧
     (lookupE st0.arms "b" = none →
      lookupE (export_arm_state (choose_archetype st0 ["a", "b"] 0 false).2) "b"
        = some ⟨0, 0⟩)) :=
  ⟨by decide, claim_C10_lazy_creation st0 ["a", "b"] 0 false "b" (by decide)⟩

end ContentProd
